import Mathlib

/-!
# Verification of the image2svg raster-to-stroke pipeline

A shallow embedding of `image2svg.py`: the draw-decision predicates
(`needLineX`, `needLineY`), the per-scanline run scan of `generateVectors`,
the stroke emitter `svgPrint` (SVG geometry records plus gcode
Travel/Mark instructions with travel elision), and the two-pass driver.

Conventions of the embedding:
* Pixel shade values are `Nat` (the source arrays are `uint8`, values 0..255).
* Physical coordinates are exact integers in units of 0.001 mm, the
  resolution at which the source prints gcode coordinates (`%.3f`).  The
  source's `PIXEL_SIZE = 1 / (200.0 / 25.4)` mm equals exactly 127 of these
  units (`PIXEL_SIZE_MM_eq` below), so all coordinate arithmetic of the
  source is represented exactly.
* Laser modulation values (`sval`) are represented multiplied by 6, so that
  `POWER_STEP = (POWER_MAX - POWER_MIN)/6` and
  `SPEED_STEP = (FEED_SPEED_MAX - FEED_SPEED)/6` become the integers
  `POWER_MAX - POWER_MIN` and `FEED_SPEED_MAX - FEED_SPEED`.
* Fallible code is modelled with `Option`: scanning an empty row leaves the
  loop variable `index` of `generateVectors` unbound, so the final-segment
  test `row[index]` raises `NameError`; that path returns `none`.
-/

/-! ## Shade thresholds and device constants (source lines 37..52) -/

def shade1 : Nat := 0
def shade2 : Nat := 50
def shade3 : Nat := 100
def shade4 : Nat := 158
def shade5 : Nat := 212
def shade6 : Nat := 240

/-- Pixel size in units of 0.001 mm: the source's
`PIXEL_SIZE = 1 / (200.0 / 25.4)` mm is exactly 0.127 mm. -/
def PIXEL_SIZE : Int := 127

/-- The source's pixel size in millimetres, as an exact rational. -/
def PIXEL_SIZE_MM : ℚ := 1 / (200 / (254 / 10))

/-- The integer-unit pixel size represents the source's floating-point
`PIXEL_SIZE` exactly: 127 units of 0.001 mm. -/
theorem PIXEL_SIZE_MM_eq : PIXEL_SIZE_MM = (PIXEL_SIZE : ℚ) / 1000 := by
  rw [PIXEL_SIZE_MM, PIXEL_SIZE]
  norm_num

def POWER_MIN : Nat := 0
def POWER_MAX : Nat := 15
def FEED_SPEED : Nat := 300
def FEED_SPEED_MAX : Nat := 800

/-! ## Draw-decision predicates (source lines 103..123) -/

/-- `needLineX(val, rowIndex)` — whether a horizontal segment of shade `val`
on row `rowIndex` is drawn. -/
def needLineX (val rowIndex : Nat) : Bool :=
  if rowIndex % 2 = 0 ∧ val ≤ shade1 then true
  else if rowIndex % 4 = 0 ∧ val ≤ shade3 then true
  else if rowIndex % 8 = 0 ∧ val ≤ shade5 then true
  else false

/-- `needLineY(val, rowIndex)` — whether a vertical segment of shade `val`
on (transposed) row `rowIndex` is drawn. -/
def needLineY (val rowIndex : Nat) : Bool :=
  if rowIndex % 2 = 0 ∧ val ≤ shade1 then false
  else if rowIndex % 4 = 0 ∧ val ≤ shade2 then true
  else if rowIndex % 4 = 0 ∧ val ≤ shade3 then false
  else if rowIndex % 8 = 0 ∧ val ≤ shade4 then true
  else false

/-- Depth of the periodicity class of a line index: lines divisible by 8 are
deepest, then divisible by 4, then even, then odd. -/
def periodDepth (i : Nat) : Nat :=
  if i % 8 = 0 then 3 else if i % 4 = 0 then 2 else if i % 2 = 0 then 1 else 0

/-! ## Claims C4, C5, C10: the two predicates -/

/-- C5: the horizontal-axis draw predicate accepts `(val, i)` exactly when
`i` is even and `val ≤ shade1`, or `4 ∣ i` and `val ≤ shade3`, or `8 ∣ i`
and `val ≤ shade5`; and it is monotone: lowering the shade value or moving
to a line index of deeper periodicity class never rejects an accepted
pair. -/
theorem c5_horizontal :
    (∀ val i, needLineX val i = true ↔
      ((i % 2 = 0 ∧ val ≤ shade1) ∨ (i % 4 = 0 ∧ val ≤ shade3) ∨
        (i % 8 = 0 ∧ val ≤ shade5))) ∧
    (∀ val val' i i', val' ≤ val → periodDepth i ≤ periodDepth i' →
      needLineX val i = true → needLineX val' i' = true) := by
  have hch : ∀ val i, needLineX val i = true ↔
      ((i % 2 = 0 ∧ val ≤ shade1) ∨ (i % 4 = 0 ∧ val ≤ shade3) ∨
        (i % 8 = 0 ∧ val ≤ shade5)) := by
    intro val i
    simp only [needLineX, shade1, shade3, shade5]
    split
    · simp_all
    · split
      · simp_all
      · split <;> simp_all
  refine ⟨hch, ?_⟩
  have p2 : ∀ j, 1 ≤ periodDepth j → j % 2 = 0 := by
    intro j h
    unfold periodDepth at h
    split_ifs at h <;> omega
  have p4 : ∀ j, 2 ≤ periodDepth j → j % 4 = 0 := by
    intro j h
    unfold periodDepth at h
    split_ifs at h <;> omega
  have p8 : ∀ j, 3 ≤ periodDepth j → j % 8 = 0 := by
    intro j h
    unfold periodDepth at h
    split_ifs at h <;> omega
  have d2 : ∀ j, j % 2 = 0 → 1 ≤ periodDepth j := by
    intro j h
    unfold periodDepth
    split_ifs <;> omega
  have d4 : ∀ j, j % 4 = 0 → 2 ≤ periodDepth j := by
    intro j h
    unfold periodDepth
    split_ifs <;> omega
  have d8 : ∀ j, j % 8 = 0 → 3 ≤ periodDepth j := by
    intro j h
    unfold periodDepth
    split_ifs <;> omega
  intro val val' i i' hv hd hacc
  rw [hch] at hacc ⊢
  simp only [shade1, shade3, shade5] at hacc ⊢
  rcases hacc with ⟨h2, hs⟩ | ⟨h4, hs⟩ | ⟨h8, hs⟩
  · exact Or.inl ⟨p2 i' (le_trans (d2 i h2) hd), by omega⟩
  · exact Or.inr (Or.inl ⟨p4 i' (le_trans (d4 i h4) hd), by omega⟩)
  · exact Or.inr (Or.inr ⟨p8 i' (le_trans (d8 i h8) hd), by omega⟩)

/-- C5 witness: monotonicity applied at a concrete accepted pair:
`needLineX 50 4` holds and implies `needLineX 0 8`. -/
theorem c5_horizontal_witness : needLineX 50 4 = true ∧ needLineX 0 8 = true :=
  ⟨by decide, c5_horizontal.2 50 0 4 8 (by decide) (by decide) (by decide)⟩

/-- C10: the vertical-axis draw predicate accepts `(val, i)` exactly when
`4 ∣ i` and `shade1 < val ≤ shade2`, or `8 ∣ i` and `shade3 < val ≤ shade4`;
in particular it rejects every line index not divisible by 4, and rejects
the darkest band `val ≤ shade1` everywhere. -/
theorem c10_vertical :
    (∀ val i, needLineY val i = true ↔
      ((i % 4 = 0 ∧ shade1 < val ∧ val ≤ shade2) ∨
        (i % 8 = 0 ∧ shade3 < val ∧ val ≤ shade4))) ∧
    (∀ val i, i % 4 ≠ 0 → needLineY val i = false) ∧
    (∀ val i, val ≤ shade1 → needLineY val i = false) := by
  have hch : ∀ val i, needLineY val i = true ↔
      ((i % 4 = 0 ∧ shade1 < val ∧ val ≤ shade2) ∨
        (i % 8 = 0 ∧ shade3 < val ∧ val ≤ shade4)) := by
    intro val i
    simp only [needLineY, shade1, shade2, shade3, shade4]
    split
    · rename_i h
      constructor
      · simp
      · rintro (⟨_, h1, _⟩ | ⟨h8, h3, _⟩) <;> omega
    · rename_i h
      split
      · rename_i h2
        simp only [true_iff]
        left
        exact ⟨h2.1, by omega, h2.2⟩
      · split
        · rename_i h3
          constructor
          · simp
          · rintro (⟨_, _, hle⟩ | ⟨h8, hgt, _⟩) <;> omega
        · split
          · rename_i h4
            simp only [true_iff]
            right
            refine ⟨h4.1, ?_, h4.2⟩
            omega
          · constructor
            · simp
            · rintro (⟨h4, hgt, hle⟩ | ⟨h8, hgt, hle⟩) <;> omega
  refine ⟨hch, ?_, ?_⟩
  · intro val i h4
    have h8 : i % 8 ≠ 0 := by omega
    rcases h : needLineY val i
    · rfl
    · rw [hch] at h
      rcases h with ⟨h, _⟩ | ⟨h, _⟩ <;> omega
  · intro val i hv
    rcases h : needLineY val i
    · rfl
    · rw [hch] at h
      simp only [shade1] at hv
      rcases h with ⟨_, h, _⟩ | ⟨_, h, _⟩ <;> simp [shade1, shade3] at h <;> omega

/-- C10 witness: a line index not divisible by 4 rejects shade 50, while a
4-periodic line accepts it. -/
theorem c10_vertical_witness : needLineY 50 3 = false ∧ needLineY 50 4 = true :=
  ⟨c10_vertical.2.1 50 3 (by decide),
    (c10_vertical.1 50 4).mpr (Or.inl (by decide))⟩

/-- C4 counterexample: the two predicates both accept shade 50 on line 4, so
the vertical predicate is not false wherever the horizontal one is true. -/
theorem c4_cex : needLineX 50 4 = true ∧ needLineY 50 4 = true := by decide

/-- C4 (amended): every pair the vertical predicate accepts is also accepted
by the horizontal predicate, and the overlap is exactly the cross-hatch
bands: `4 ∣ i` with `shade1 < val ≤ shade2`, and `8 ∣ i` with
`shade3 < val ≤ shade4`. -/
theorem c4_amended :
    (∀ val i, needLineY val i = true → needLineX val i = true) ∧
    (∀ val i, (needLineX val i = true ∧ needLineY val i = true) ↔
      ((i % 4 = 0 ∧ shade1 < val ∧ val ≤ shade2) ∨
        (i % 8 = 0 ∧ shade3 < val ∧ val ≤ shade4))) := by
  have hsub : ∀ val i, needLineY val i = true → needLineX val i = true := by
    intro val i hy
    rw [(c10_vertical.1 val i : _)] at hy
    rw [c5_horizontal.1]
    simp only [shade1, shade2, shade3, shade4, shade5] at hy ⊢
    rcases hy with ⟨h4, _, hle⟩ | ⟨h8, _, hle⟩
    · exact Or.inr (Or.inl ⟨h4, by omega⟩)
    · exact Or.inr (Or.inr ⟨h8, by omega⟩)
  refine ⟨hsub, ?_⟩
  intro val i
  constructor
  · rintro ⟨_, hy⟩
    exact (c10_vertical.1 val i).mp hy
  · intro h
    have hy := (c10_vertical.1 val i).mpr h
    exact ⟨hsub val i hy, hy⟩

/-- C4 amended witness: the containment applied at the concrete overlap
pair (shade 50, line 4). -/
theorem c4_amended_witness : needLineY 50 4 = true ∧ needLineX 50 4 = true :=
  ⟨by decide, c4_amended.1 50 4 (by decide)⟩

/-! ## The run scan of generateVectors (source lines 162..177)

The inner loop of `generateVectors` walks one scanline: at each `index > 0`
with `row[index] ≠ row[index-1]` it closes the pending segment
`(firstEndpoint, index)` with shade `row[index-1]`, and after the loop it
closes the final pending segment `(firstEndpoint, index)` where `index`
still holds the last loop value `length - 1`. -/

/-- The segments `(start, stop, shade)` passed to the draw decision and to
`svgPrint` by one scanline of `generateVectors`.  `fe` is `firstEndpoint`,
`i` the index of the next sample, `prev` the sample at `i - 1`. -/
def scanSegsAux (fe i prev : Nat) : List Nat → List (Nat × Nat × Nat)
  | [] => [(fe, i - 1, prev)]
  | p :: rest =>
    if p ≠ prev then (fe, i, prev) :: scanSegsAux i (i + 1) p rest
    else scanSegsAux fe (i + 1) p rest

/-- All segments evaluated for a scanline (empty for an empty row; that case
is unreachable, see `processRow`). -/
def scanSegs : List Nat → List (Nat × Nat × Nat)
  | [] => []
  | p :: rest => scanSegsAux 0 1 p rest

/-- Shift the positions of a segment list by one sample. -/
def shiftB (l : List (Nat × Nat × Nat)) : List (Nat × Nat × Nat) :=
  l.map fun b => (b.1 + 1, b.2.1 + 1, b.2.2)

/-- Prepend one sample of shade `a` to a block decomposition: it merges into
the first block when the shades agree, else it forms a new first block. -/
def consBlock (a : Nat) : List (Nat × Nat × Nat) → List (Nat × Nat × Nat)
  | [] => [(0, 1, a)]
  | (s, e, v) :: bs =>
    if v = a then (0, e + 1, a) :: shiftB bs
    else (0, 1, a) :: shiftB ((s, e, v) :: bs)

/-- Modelled from the spec (§4.2): the maximal constant runs `[start, stop)`
of a scanline with their shade values — the sample ranges whose shades the
run detector evaluates. -/
def blocks : List Nat → List (Nat × Nat × Nat)
  | [] => []
  | a :: m => consBlock a (blocks m)

/-- Decrement the stop coordinate of the final segment: the code's scan
emits the last pending segment with `stop = length - 1`, one less than the
exclusive end of the final run. -/
def adjustLast : List (Nat × Nat × Nat) → List (Nat × Nat × Nat)
  | [] => []
  | [b] => [(b.1, b.2.1 - 1, b.2.2)]
  | b :: bs => b :: adjustLast bs

/-- A segment list tiles the index range `[cur, n)` with no gaps, overlaps,
or empty segments. -/
def chainedUpto : Nat → Nat → List (Nat × Nat × Nat) → Prop
  | cur, n, [] => cur = n
  | cur, n, b :: bs => b.1 = cur ∧ cur < b.2.1 ∧ chainedUpto b.2.1 n bs

theorem blocks_head (a : Nat) (m : List Nat) :
    ∃ e bs, blocks (a :: m) = (0, e, a) :: bs ∧ 1 ≤ e := by
  rcases hbm : blocks m with _ | ⟨⟨s, e, v⟩, bs⟩
  · exact ⟨1, [], by simp [blocks, consBlock, hbm], le_refl 1⟩
  · by_cases hv : v = a
    · exact ⟨e + 1, shiftB bs, by simp [blocks, consBlock, hbm, hv], by omega⟩
    · exact ⟨1, shiftB ((s, e, v) :: bs), by simp [blocks, consBlock, hbm, hv],
        le_refl 1⟩

theorem chainedUpto_shift (l : List (Nat × Nat × Nat)) :
    ∀ cur n, chainedUpto cur n l → chainedUpto (cur + 1) (n + 1) (shiftB l) := by
  induction l with
  | nil => intro cur n h; simpa [shiftB, chainedUpto] using h
  | cons b bs ih =>
    rintro cur n ⟨h1, h2, h3⟩
    have hs : shiftB (b :: bs) = (b.1 + 1, b.2.1 + 1, b.2.2) :: shiftB bs := rfl
    rw [hs]
    exact ⟨show b.1 + 1 = cur + 1 by omega,
      show cur + 1 < b.2.1 + 1 by omega, ih _ _ h3⟩

theorem blocks_chained (m : List Nat) : ∀ a : Nat,
    chainedUpto 0 (m.length + 1) (blocks (a :: m)) := by
  induction m with
  | nil => intro a; simp [blocks, consBlock, chainedUpto]
  | cons p rest ih =>
    intro a
    obtain ⟨e, bs, hb, he⟩ := blocks_head p rest
    have hch := ih p
    rw [hb] at hch
    obtain ⟨-, he', hbs⟩ := hch
    have he2 : 0 < e := by simpa using he'
    have hbs2 : chainedUpto e (rest.length + 1) bs := by simpa using hbs
    have hstep : blocks (a :: p :: rest) = consBlock a (blocks (p :: rest)) := rfl
    by_cases hv : p = a
    · have : blocks (a :: p :: rest) = (0, e + 1, a) :: shiftB bs := by
        rw [hstep, hb]; simp [consBlock, hv]
      rw [this]
      refine ⟨rfl, show 0 < e + 1 by omega, ?_⟩
      show chainedUpto (e + 1) (rest.length + 1 + 1) (shiftB bs)
      exact chainedUpto_shift bs e (rest.length + 1) hbs2
    · have : blocks (a :: p :: rest) = (0, 1, a) :: shiftB ((0, e, p) :: bs) := by
        rw [hstep, hb]; simp [consBlock, hv]
      rw [this]
      refine ⟨rfl, show 0 < 1 by omega, ?_⟩
      show chainedUpto 1 (rest.length + 1 + 1) (shiftB ((0, e, p) :: bs))
      exact chainedUpto_shift _ 0 (rest.length + 1) ⟨rfl, he2, hbs2⟩

theorem chainedUpto_sum (l : List (Nat × Nat × Nat)) :
    ∀ cur n, chainedUpto cur n l →
      cur + (l.map fun b => b.2.1 - b.1).sum = n := by
  induction l with
  | nil => intro cur n h; simpa [chainedUpto] using h
  | cons b bs ih =>
    rintro cur n ⟨h1, h2, h3⟩
    have := ih _ _ h3
    simp only [List.map_cons, List.sum_cons]
    omega

theorem chainedUpto_bounds (l : List (Nat × Nat × Nat)) :
    ∀ cur n, chainedUpto cur n l →
      ∀ b ∈ l, cur ≤ b.1 ∧ b.1 < b.2.1 ∧ b.2.1 ≤ n := by
  induction l with
  | nil => intro cur n _ b hb; simp at hb
  | cons x bs ih =>
    rintro cur n ⟨h1, h2, h3⟩ b hb
    have hx := ih _ _ h3
    have hnle : x.2.1 ≤ n := by
      rcases bs with _ | ⟨y, ys⟩
      · have : x.2.1 = n := h3
        omega
      · obtain ⟨hy1, hy2, _⟩ := h3
        have := hx y (by simp)
        omega
    rcases List.mem_cons.mp hb with rfl | hmem
    · exact ⟨by omega, by omega, hnle⟩
    · have := hx b hmem
      omega

theorem chainedUpto_cover (l : List (Nat × Nat × Nat)) :
    ∀ cur n, chainedUpto cur n l → ∀ j, cur ≤ j → j < n →
      ∃! b, b ∈ l ∧ b.1 ≤ j ∧ j < b.2.1 := by
  induction l with
  | nil =>
    intro cur n h j h1 h2
    have : cur = n := h
    omega
  | cons x bs ih =>
    rintro cur n ⟨h1, h2, h3⟩ j hj1 hj2
    by_cases hcase : j < x.2.1
    · refine ⟨x, ⟨by simp, by omega, hcase⟩, ?_⟩
      rintro b ⟨hb, hb1, hb2⟩
      rcases List.mem_cons.mp hb with rfl | hmem
      · rfl
      · have := chainedUpto_bounds bs _ _ h3 b hmem
        omega
    · obtain ⟨b, ⟨hb, hb1, hb2⟩, huniq⟩ := ih _ _ h3 j (by omega) hj2
      refine ⟨b, ⟨List.mem_cons_of_mem _ hb, hb1, hb2⟩, ?_⟩
      rintro b' ⟨hb', hb1', hb2'⟩
      rcases List.mem_cons.mp hb' with rfl | hmem
      · omega
      · exact huniq b' ⟨hmem, hb1', hb2'⟩

theorem chainedUpto_chain (l : List (Nat × Nat × Nat)) :
    ∀ cur n, chainedUpto cur n l →
      List.Chain' (fun b b' => b.2.1 = b'.1) l := by
  induction l with
  | nil => intro cur n _; simp
  | cons x bs ih =>
    rintro cur n ⟨h1, h2, h3⟩
    rcases bs with _ | ⟨y, ys⟩
    · simp
    · exact List.Chain'.cons h3.1.symm (ih _ _ h3)

/-- Offset a block decomposition to start the pending segment at
`firstEndpoint = fe` with all positions shifted by `j`. -/
def offsetBlocks (fe j : Nat) : List (Nat × Nat × Nat) → List (Nat × Nat × Nat)
  | [] => []
  | b :: bs => (fe, b.2.1 + j, b.2.2) :: bs.map fun x => (x.1 + j, x.2.1 + j, x.2.2)

theorem adjustLast_cons (b : Nat × Nat × Nat) (l : List (Nat × Nat × Nat))
    (h : l ≠ []) : adjustLast (b :: l) = b :: adjustLast l := by
  cases l with
  | nil => exact absurd rfl h
  | cons x xs => rfl

theorem map_offset_shift (j : Nat) (l : List (Nat × Nat × Nat)) :
    (shiftB l).map (fun x => (x.1 + j, x.2.1 + j, x.2.2)) =
      l.map (fun x => (x.1 + (j + 1), x.2.1 + (j + 1), x.2.2)) := by
  rw [shiftB, List.map_map]
  apply List.map_congr_left
  intro x _
  dsimp only [Function.comp]
  simp only [Prod.mk.injEq, and_true]
  omega

theorem adjustLast_cons_cons (x y : Nat × Nat × Nat)
    (l : List (Nat × Nat × Nat)) :
    adjustLast (x :: y :: l) = x :: adjustLast (y :: l) := rfl

theorem scanSegsAux_eq (m : List Nat) : ∀ prev fe j,
    scanSegsAux fe (j + 1) prev m =
      adjustLast (offsetBlocks fe j (blocks (prev :: m))) := by
  induction m with
  | nil =>
    intro prev fe j
    show [(fe, j + 1 - 1, prev)] =
      adjustLast (offsetBlocks fe j (blocks [prev]))
    have hB : blocks [prev] = [(0, 1, prev)] := rfl
    rw [hB]
    show [(fe, j + 1 - 1, prev)] = adjustLast [(fe, 1 + j, prev)]
    show [(fe, j + 1 - 1, prev)] = [(fe, 1 + j - 1, prev)]
    rw [show (1 : Nat) + j = j + 1 from by omega]
  | cons p rest ih =>
    intro prev fe j
    obtain ⟨e, bs, hb, he⟩ := blocks_head p rest
    have hstep : blocks (prev :: p :: rest) = consBlock prev (blocks (p :: rest)) := rfl
    by_cases hp : p = prev
    · subst hp
      have hL : scanSegsAux fe (j + 1) p (p :: rest) =
          scanSegsAux fe (j + 1 + 1) p rest := by
        simp [scanSegsAux]
      rw [hL, ih p fe (j + 1)]
      have hB : blocks (p :: p :: rest) = (0, e + 1, p) :: shiftB bs := by
        rw [hstep, hb]; simp [consBlock]
      rw [hb, hB]
      show adjustLast ((fe, e + (j + 1), p) :: bs.map
          (fun x => (x.1 + (j + 1), x.2.1 + (j + 1), x.2.2))) =
        adjustLast ((fe, e + 1 + j, p) :: (shiftB bs).map
          (fun x => (x.1 + j, x.2.1 + j, x.2.2)))
      rw [map_offset_shift]
      have harith : e + (j + 1) = e + 1 + j := by omega
      rw [harith]
    · have hL : scanSegsAux fe (j + 1) prev (p :: rest) =
          (fe, j + 1, prev) :: scanSegsAux (j + 1) (j + 1 + 1) p rest := by
        simp [scanSegsAux, hp]
      rw [hL, ih p (j + 1) (j + 1)]
      have hB : blocks (prev :: p :: rest) =
          (0, 1, prev) :: shiftB ((0, e, p) :: bs) := by
        rw [hstep, hb]; simp [consBlock, hp]
      rw [hb, hB]
      show (fe, j + 1, prev) ::
          adjustLast ((j + 1, e + (j + 1), p) :: bs.map
            (fun x => (x.1 + (j + 1), x.2.1 + (j + 1), x.2.2))) =
        adjustLast ((fe, 1 + j, prev) :: (shiftB ((0, e, p) :: bs)).map
          (fun x => (x.1 + j, x.2.1 + j, x.2.2)))
      rw [map_offset_shift]
      simp only [List.map_cons]
      rw [adjustLast_cons_cons]
      rw [Nat.zero_add]
      rw [show (1 : Nat) + j = j + 1 from by omega]

/-- The code's scan evaluates exactly the maximal constant runs of the
scanline, printing the final run's stop coordinate decremented by one. -/
theorem scanSegs_eq_blocks (a : Nat) (m : List Nat) :
    scanSegs (a :: m) = adjustLast (blocks (a :: m)) := by
  have h := scanSegsAux_eq m a 0 0
  obtain ⟨e, bs, hb, he⟩ := blocks_head a m
  rw [hb] at h
  have hmap0 : bs.map (fun x => (x.1 + 0, x.2.1 + 0, x.2.2)) = bs := by
    have : ∀ x ∈ bs, (x.1 + 0, x.2.1 + 0, x.2.2) = id x := by
      intro x _
      simp
    rw [List.map_congr_left this, List.map_id]
  have hobs : offsetBlocks 0 0 ((0, e, a) :: bs) = (0, e, a) :: bs := by
    show (0, e + 0, a) :: bs.map (fun x => (x.1 + 0, x.2.1 + 0, x.2.2)) = _
    rw [hmap0]
    rfl
  rw [hobs] at h
  rw [hb]
  exact h

/-- C2: for every non-empty scanline, the runs evaluated by the run
detector are exactly the maximal constant runs, which partition the
scanline: the code's evaluation list is `blocks` with the final stop
printed one less, every pixel lies in exactly one run, the runs are
reported in ascending (contiguous) order, every run spans at least one
sample, and the run lengths sum to the scanline length. -/
theorem c2_runs_partition (a : Nat) (m : List Nat) :
    scanSegs (a :: m) = adjustLast (blocks (a :: m)) ∧
    (∀ j, j < (a :: m).length →
      ∃! b, b ∈ blocks (a :: m) ∧ b.1 ≤ j ∧ j < b.2.1) ∧
    List.Chain' (fun b b' => b.2.1 = b'.1) (blocks (a :: m)) ∧
    (∀ b ∈ blocks (a :: m), b.1 < b.2.1) ∧
    ((blocks (a :: m)).map fun b => b.2.1 - b.1).sum = (a :: m).length := by
  have hch := blocks_chained m a
  have hlen : (a :: m).length = m.length + 1 := by simp
  refine ⟨scanSegs_eq_blocks a m, ?_, ?_, ?_, ?_⟩
  · intro j hj
    exact chainedUpto_cover _ _ _ hch j (Nat.zero_le j) (by omega)
  · exact chainedUpto_chain _ _ _ hch
  · intro b hb
    exact (chainedUpto_bounds _ _ _ hch b hb).2.1
  · have := chainedUpto_sum _ _ _ hch
    omega

/-- C2 witness: the partition property evaluated on the concrete scanline
`[5, 50]`, whose runs are `[0,1)` of shade 5 and `[1,2)` of shade 50. -/
theorem c2_runs_partition_witness :
    blocks [5, 50] = [(0, 1, 5), (1, 2, 50)] ∧
    (∃! b, b ∈ blocks [5, 50] ∧ b.1 ≤ 1 ∧ 1 < b.2.1) :=
  ⟨by decide, (c2_runs_partition 5 [50]).2.1 1 (by decide)⟩

/-! ## gcode emission primitives (source lines 44..99) -/

/-- A gcode motion instruction: `travel` is a `G0` move (`MOVE_GCODE`),
`mark` a burn move (`BURN_GCODE` in power mode, `BURN_GCODE_F` in speed
mode), with coordinates in units of 0.001 mm and the modulation value
scaled by 6. -/
inductive GInstr where
  | travel (x y : Int)
  | mark (x y sval : Int)
deriving DecidableEq

/-- `MOVE_TO`/`BURN_TO` snap near-zero coordinates to exactly 0 before
writing: `if (x < 0.001): x = 0`; the threshold 0.001 mm is 1 unit. -/
def snapZero (x : Int) : Int := if x < 1 then 0 else x

def MOVE_TO (x y : Int) : GInstr := .travel (snapZero x) (snapZero y)

/-- Both burn formats carry the end point and a modulation value; the
S-word versus F-word formatting difference is not modelled. -/
def BURN_TO (x y sval : Int) : GInstr := .mark (snapZero x) (snapZero y) sval

/-- The globals `last_a, last_b, last_c, last_d` (source lines 78..81),
initialised to 0. -/
structure GState where
  last_a : Int
  last_b : Int
  last_c : Int
  last_d : Int
deriving DecidableEq

def initGState : GState := ⟨0, 0, 0, 0⟩

/-! ## The stroke emitter svgPrint (source lines 125..156) -/

/-- The shade quantisation applied by `svgPrint`:
`if val != 0: val = (val // (256 // 6)) * (256 // 6)`. -/
def quantVal (val : Nat) : Nat :=
  if val ≠ 0 then (val / (256 / 6)) * (256 / 6) else val

/-- The modulation value `sval`, scaled by 6: in speed mode the source
computes `val // (256//6) * SPEED_STEP + FEED_SPEED`, in power mode
`(255-val) // (256//6) * POWER_STEP`, where `val` is the already-quantised
shade (at most 252 for input shades in 0..255, so the subtraction from 255
does not underflow). -/
def svalOf (sOrF : Bool) (val : Nat) : Int :=
  if sOrF then
    ((val / (256 / 6)) * (FEED_SPEED_MAX - FEED_SPEED) + 6 * FEED_SPEED : Nat)
  else (((255 - val) / (256 / 6)) * (POWER_MAX - POWER_MIN) : Nat)

/-- `axisDimension-start if invert == True else start` (source lines
130, 133, 141, 142). -/
def mirrorCoord (invert : Bool) (axisDimension coord : Nat) : Int :=
  if invert then (axisDimension : Int) - coord else coord

/-- The geometry record written by `svgPrint`: the two scan-axis
coordinates, the scanline number (written for both endpoints), which axis
pair is in use (`axesX = true` for `['x','y']`), and the quantised stroke
colour. -/
structure SvgLine where
  axesX : Bool
  c1 : Int
  c2 : Int
  rowNum : Nat
  color : Nat
deriving DecidableEq

def svgRec (start stop rowNum : Nat) (invert axesX : Bool)
    (axisDimension val : Nat) : SvgLine :=
  { axesX := axesX
    c1 := mirrorCoord invert axisDimension start
    c2 := mirrorCoord invert axisDimension stop
    rowNum := rowNum
    color := quantVal val }

/-- The physical scan-axis coordinate of a pixel coordinate:
`float(axisDimension-start if invert == True else start) * PIXEL_SIZE`. -/
def physCoord (invert : Bool) (axisDimension coord : Nat) : Int :=
  mirrorCoord invert axisDimension coord * PIXEL_SIZE

/-- Order a (scan-axis, row-axis) value pair as an (X, Y) point: with
`axes = ['x','y']` the scan coordinate is X (`MOVE_TO(a, b)`), with
`axes = ['y','x']` it is Y (`MOVE_TO(b, a)`). -/
def physPoint (axesX : Bool) (scanC rowC : Int) : Int × Int :=
  if axesX then (scanC, rowC) else (rowC, scanC)

/-- `svgPrint(start, stop, rowNum, invert, axes, axisDimension, val)`:
the geometry record, the gcode instructions written (a travel only when
`a != last_c or b != last_d`, then one burn), and the updated cursor. -/
def svgPrint (sOrF : Bool) (start stop rowNum : Nat) (invert axesX : Bool)
    (axisDimension val : Nat) (st : GState) :
    SvgLine × List GInstr × GState :=
  let r := svgRec start stop rowNum invert axesX axisDimension val
  let sval := svalOf sOrF (quantVal val)
  let a := physCoord invert axisDimension start
  let c := physCoord invert axisDimension stop
  let b := (rowNum : Int) * PIXEL_SIZE
  let d := b
  let mv := physPoint axesX a b
  let bn := physPoint axesX c d
  let gc :=
    (if a ≠ st.last_c ∨ b ≠ st.last_d then [MOVE_TO mv.1 mv.2] else []) ++
      [BURN_TO bn.1 bn.2 sval]
  (r, gc, ⟨a, b, c, d⟩)

/-! ## The row loop and the two-pass driver (source lines 159..181, 232..237) -/

/-- The segments of one scanline accepted by the draw decision. -/
def acceptedSegs (needLine : Nat → Nat → Bool) (rowIndex : Nat)
    (row : List Nat) : List (Nat × Nat × Nat) :=
  (scanSegs row).filter fun s => needLine s.2.2 rowIndex

/-- Emit the accepted segments of a scanline in order, threading the
cursor state through the `svgPrint` calls. -/
def emitSegs (sOrF : Bool) (rowIndex : Nat) (invert axesX : Bool)
    (axisDimension : Nat) :
    List (Nat × Nat × Nat) → GState → List SvgLine × List GInstr × GState
  | [], st => ([], [], st)
  | (s, e, v) :: segs, st =>
    let x := svgPrint sOrF s e rowIndex invert axesX axisDimension v st
    let y := emitSegs sOrF rowIndex invert axesX axisDimension segs x.2.2
    (x.1 :: y.1, x.2.1 ++ y.2.1, y.2.2)

/-- One scanline body of `generateVectors` after the possible reversal.
`none` models the `NameError` on an empty row: after a zero-iteration
loop the final-segment test `row[index]` reads the unbound loop variable
`index`.  Otherwise: the records, instructions, new cursor, and
`rowDrawn`. -/
def processRow (sOrF : Bool) (needLine : Nat → Nat → Bool) (axesX : Bool)
    (axisDimension rowIndex : Nat) (invert : Bool) (row : List Nat)
    (st : GState) :
    Option (List SvgLine × List GInstr × GState × Bool) :=
  match row with
  | [] => none
  | _ :: _ =>
    let acc := acceptedSegs needLine rowIndex row
    let out := emitSegs sOrF rowIndex invert axesX axisDimension acc st
    some (out.1, out.2.1, out.2.2, !acc.isEmpty)

/-- Processing one scanline including the serpentine reversal
(`if invert == True: row = np.flipud(row)`). -/
def processScanline (sOrF : Bool) (needLine : Nat → Nat → Bool) (axesX : Bool)
    (axisDimension rowIndex : Nat) (invert : Bool) (row : List Nat)
    (st : GState) :
    Option (List SvgLine × List GInstr × GState × Bool) :=
  processRow sOrF needLine axesX axisDimension rowIndex invert
    (if invert then row.reverse else row) st

/-- Output of one axis pass; `trace` records, per scanline, the inversion
flag in force when the line was processed and whether it drew anything. -/
structure PassOut where
  svgs : List SvgLine
  gc : List GInstr
  st : GState
  trace : List (Bool × Bool)
deriving DecidableEq

/-- The row loop of `generateVectors`. -/
def generateVectorsAux (sOrF : Bool) (needLine : Nat → Nat → Bool)
    (axesX : Bool) (axisDimension : Nat) :
    List (List Nat) → Nat → Bool → GState → Option PassOut
  | [], _, _, st => some ⟨[], [], st, []⟩
  | row :: rest, rowIndex, invert, st =>
    match processScanline sOrF needLine axesX axisDimension rowIndex invert
        row st with
    | none => none
    | some (recs, gcs, st1, drawn) =>
      match generateVectorsAux sOrF needLine axesX axisDimension rest
          (rowIndex + 1) (if drawn then !invert else invert) st1 with
      | none => none
      | some out =>
        some ⟨recs ++ out.svgs, gcs ++ out.gc, out.st,
          (invert, drawn) :: out.trace⟩

/-- `generateVectors(img, needLine, axes, axisDimension)`: one axis pass,
starting with `invert = False`. -/
def generateVectors (sOrF : Bool) (img : List (List Nat))
    (needLine : Nat → Nat → Bool) (axesX : Bool) (axisDimension : Nat)
    (st : GState) : Option PassOut :=
  generateVectorsAux sOrF needLine axesX axisDimension img 0 false st

/-- The pixel rows of a `width × height` image; `px r c` is the sample at
row `r`, column `c`. -/
def mkImg (w h : Nat) (px : Nat → Nat → Nat) : List (List Nat) :=
  (List.range h).map fun r => (List.range w).map fun c => px r c

/-- The rows of the transposed image (`np.swapaxes(image, 0, 1)`). -/
def mkImgT (w h : Nat) (px : Nat → Nat → Nat) : List (List Nat) :=
  (List.range w).map fun c => (List.range h).map fun r => px r c

structure PipeOut where
  svgs : List SvgLine
  gc : List GInstr
  st : GState
  traceX : List (Bool × Bool)
  traceY : List (Bool × Bool)
deriving DecidableEq

/-- The core pipeline of `main`: the horizontal pass over the image with
`needLineX` and `axes = ['x','y']` and `axisDimension = width`, then the
vertical pass over the transposed image with `needLineY`,
`axes = ['y','x']` and `axisDimension = height`, sharing one cursor state
and appending to the same output streams. -/
def pipeline (sOrF : Bool) (w h : Nat) (px : Nat → Nat → Nat) :
    Option PipeOut :=
  match generateVectors sOrF (mkImg w h px) needLineX true w initGState with
  | none => none
  | some ox =>
    match generateVectors sOrF (mkImgT w h px) needLineY false h ox.st with
    | none => none
    | some oy =>
      some ⟨ox.svgs ++ oy.svgs, ox.gc ++ oy.gc, oy.st, ox.trace, oy.trace⟩

/-! ## Claim C8: shade quantisation of the geometry record -/

/-- C8: the darkness recorded in every geometry record is the shade value
quantised by bucket index `val / (256/6)` (integer division, as in the
source) mapped back to a grey value, `(val / (256/6)) * (256/6)`; the
`val != 0` guard in the source is redundant since 0 maps to 0. -/
theorem c8_quantize (sOrF : Bool) (start stop rowNum : Nat)
    (invert axesX : Bool) (axisDimension val : Nat) (st : GState) :
    (svgPrint sOrF start stop rowNum invert axesX axisDimension val
        st).1.color = (val / (256 / 6)) * (256 / 6) := by
  show quantVal val = val / (256 / 6) * (256 / 6)
  by_cases h : val = 0
  · subst h
    rfl
  · simp [quantVal, h]

/-- C7 (code bug): a grid with zero width and positive height faults (the
horizontal pass scans an empty row), a grid with zero height and positive
width faults in the transposed pass, and only the 0×0 grid short-circuits
with no output at all. -/
theorem c7_empty_fault :
    pipeline false 0 1 (fun _ _ => 0) = none ∧
    pipeline false 1 0 (fun _ _ => 0) = none ∧
    pipeline false 0 0 (fun _ _ => 0) = some ⟨[], [], initGState, [], []⟩ := by
  refine ⟨by decide, by decide, by decide⟩

/-! ## Claim C1: emission structure and travel elision -/

/-- Number of Mark (burn) instructions in a gcode stream. -/
def countMarks (l : List GInstr) : Nat :=
  (l.filter fun i => match i with | .mark _ _ _ => true | _ => false).length

/-- A gcode stream is a concatenation of per-run chunks, each one Mark
preceded by at most one Travel (so every Travel is immediately followed by
a Mark and the stream ends in a Mark if nonempty). -/
def chunksOk : List GInstr → Bool
  | [] => true
  | .mark _ _ _ :: rest => chunksOk rest
  | .travel _ _ :: .mark _ _ _ :: rest => chunksOk rest
  | _ => false

theorem countMarks_append (l1 l2 : List GInstr) :
    countMarks (l1 ++ l2) = countMarks l1 + countMarks l2 := by
  simp [countMarks]

theorem chunksOk_append : ∀ l1 l2 : List GInstr,
    chunksOk l1 = true → chunksOk l2 = true → chunksOk (l1 ++ l2) = true
  | [], l2, _, h2 => by simpa using h2
  | .mark x y s :: rest, l2, h1, h2 => by
    have hr : chunksOk rest = true := by simpa [chunksOk] using h1
    have := chunksOk_append rest l2 hr h2
    simpa [chunksOk] using this
  | .travel x y :: .mark a b s :: rest, l2, h1, h2 => by
    have hr : chunksOk rest = true := by simpa [chunksOk] using h1
    have := chunksOk_append rest l2 hr h2
    simpa [chunksOk] using this
  | .travel x y :: .travel a b :: rest, l2, h1, _ => by
    simp [chunksOk] at h1
  | [.travel x y], l2, h1, _ => by
    simp [chunksOk] at h1

/-- The gcode written by one `svgPrint` call: an optional travel (exactly
when `a != last_c or b != last_d`) followed by one burn. -/
theorem svgPrint_gc_eq (sOrF : Bool) (start stop rowNum : Nat)
    (invert axesX : Bool) (dim val : Nat) (st : GState) :
    (svgPrint sOrF start stop rowNum invert axesX dim val st).2.1 =
      (if physCoord invert dim start ≠ st.last_c ∨
          (rowNum : Int) * PIXEL_SIZE ≠ st.last_d then
        [MOVE_TO (physPoint axesX (physCoord invert dim start)
            ((rowNum : Int) * PIXEL_SIZE)).1
          (physPoint axesX (physCoord invert dim start)
            ((rowNum : Int) * PIXEL_SIZE)).2]
      else []) ++
      [BURN_TO (physPoint axesX (physCoord invert dim stop)
          ((rowNum : Int) * PIXEL_SIZE)).1
        (physPoint axesX (physCoord invert dim stop)
          ((rowNum : Int) * PIXEL_SIZE)).2
        (svalOf sOrF (quantVal val))] := rfl

theorem svgPrint_chunk (sOrF : Bool) (start stop rowNum : Nat)
    (invert axesX : Bool) (dim val : Nat) (st : GState) :
    chunksOk (svgPrint sOrF start stop rowNum invert axesX dim val st).2.1 =
        true ∧
    countMarks (svgPrint sOrF start stop rowNum invert axesX dim val st).2.1 =
        1 := by
  rw [svgPrint_gc_eq]
  split
  · exact ⟨by simp [MOVE_TO, BURN_TO, chunksOk], by simp [MOVE_TO, BURN_TO, countMarks]⟩
  · exact ⟨by simp [BURN_TO, chunksOk], by simp [BURN_TO, countMarks]⟩

theorem emitSegs_shape (sOrF : Bool) (rowIndex : Nat) (invert axesX : Bool)
    (dim : Nat) : ∀ (segs : List (Nat × Nat × Nat)) (st : GState),
    (emitSegs sOrF rowIndex invert axesX dim segs st).1.length = segs.length ∧
    countMarks (emitSegs sOrF rowIndex invert axesX dim segs st).2.1 =
      segs.length ∧
    chunksOk (emitSegs sOrF rowIndex invert axesX dim segs st).2.1 = true := by
  intro segs
  induction segs with
  | nil => intro st; exact ⟨rfl, rfl, rfl⟩
  | cons s segs ih =>
    intro st
    obtain ⟨s1, s2, v⟩ := s
    obtain ⟨hc, hm⟩ := svgPrint_chunk sOrF s1 s2 rowIndex invert axesX dim v st
    have hEq : emitSegs sOrF rowIndex invert axesX dim ((s1, s2, v) :: segs) st =
        ((svgPrint sOrF s1 s2 rowIndex invert axesX dim v st).1 ::
          (emitSegs sOrF rowIndex invert axesX dim segs
            (svgPrint sOrF s1 s2 rowIndex invert axesX dim v st).2.2).1,
         (svgPrint sOrF s1 s2 rowIndex invert axesX dim v st).2.1 ++
          (emitSegs sOrF rowIndex invert axesX dim segs
            (svgPrint sOrF s1 s2 rowIndex invert axesX dim v st).2.2).2.1,
         (emitSegs sOrF rowIndex invert axesX dim segs
            (svgPrint sOrF s1 s2 rowIndex invert axesX dim v st).2.2).2.2) := rfl
    rw [hEq]
    obtain ⟨ih1, ih2, ih3⟩ :=
      ih ((svgPrint sOrF s1 s2 rowIndex invert axesX dim v st).2.2)
    refine ⟨?_, ?_, ?_⟩
    · simp [ih1]
    · rw [countMarks_append, hm, ih2]
      simp only [List.length_cons]
      omega
    · exact chunksOk_append _ _ hc ih3

theorem processRow_shape (sOrF : Bool) (needLine : Nat → Nat → Bool)
    (axesX : Bool) (dim rowIndex : Nat) (invert : Bool) (row : List Nat)
    (st : GState) (recs : List SvgLine) (gcs : List GInstr) (st1 : GState)
    (drawn : Bool)
    (h : processRow sOrF needLine axesX dim rowIndex invert row st =
      some (recs, gcs, st1, drawn)) :
    recs.length = (acceptedSegs needLine rowIndex row).length ∧
    countMarks gcs = recs.length ∧ chunksOk gcs = true := by
  cases row with
  | nil => exact absurd h (by simp [processRow])
  | cons p rest =>
    have hout := emitSegs_shape sOrF rowIndex invert axesX dim
      (acceptedSegs needLine rowIndex (p :: rest)) st
    simp only [processRow, Option.some.injEq, Prod.mk.injEq] at h
    obtain ⟨h1, h2, -, -⟩ := h
    rw [← h1, ← h2]
    exact ⟨hout.1, by rw [hout.2.1, hout.1], hout.2.2⟩

theorem genVecAux_shape (sOrF : Bool) (needLine : Nat → Nat → Bool)
    (axesX : Bool) (dim : Nat) : ∀ (img : List (List Nat)) (rowIndex : Nat)
    (invert : Bool) (st : GState) (out : PassOut),
    generateVectorsAux sOrF needLine axesX dim img rowIndex invert st =
      some out →
    chunksOk out.gc = true ∧ out.svgs.length = countMarks out.gc := by
  intro img
  induction img with
  | nil =>
    intro rowIndex invert st out h
    simp only [generateVectorsAux, Option.some.injEq] at h
    subst h
    exact ⟨rfl, rfl⟩
  | cons row rest ih =>
    intro rowIndex invert st out h
    simp only [generateVectorsAux] at h
    rcases hps : processScanline sOrF needLine axesX dim rowIndex invert row st
      with _ | ⟨recs, gcs, st1, drawn⟩
    · rw [hps] at h
      exact absurd h (by simp)
    · rw [hps] at h
      dsimp only at h
      rcases hrec : generateVectorsAux sOrF needLine axesX dim rest
          (rowIndex + 1) (if drawn then !invert else invert) st1
        with _ | out1
      · rw [hrec] at h
        exact absurd h (by simp)
      · rw [hrec] at h
        dsimp only at h
        simp only [Option.some.injEq] at h
        subst h
        obtain ⟨h1, h2, h3⟩ := processRow_shape sOrF needLine axesX dim
          rowIndex invert (if invert then row.reverse else row) st recs gcs
          st1 drawn hps
        obtain ⟨hh1, hh2⟩ := ih (rowIndex + 1)
          (if drawn then !invert else invert) st1 out1 hrec
        constructor
        · show chunksOk (gcs ++ out1.gc) = true
          exact chunksOk_append _ _ h3 hh1
        · show (recs ++ out1.svgs).length = countMarks (gcs ++ out1.gc)
          rw [List.length_append, countMarks_append, h2, ← hh2]

/-- C1 counterexample: on the 5×2 grid whose last column is shade 50 and
the rest shade 212, the horizontal pass ends with a Mark to the physical
point (508, 0) and the first vertical run starts at that same physical
point (column 4 × 127 = 508, sample 0), yet a Travel to (508, 0) is still
emitted: instruction 1 is `mark 508 0 75` and instruction 2 is
`travel 508 0`.  The elision comparison `a != last_c or b != last_d`
compares scan-axis against X and row-axis against Y across the pass
boundary, so coincidence of the physical points does not suppress the
Travel, refuting "the Travel is omitted exactly when the run's physical
start point coincides with the PhysicalCursor". -/
theorem c1_cex :
    (pipeline false 5 2 (fun _ c => if c = 4 then 50 else 212)).map
        (fun o => (o.gc.get? 1, o.gc.get? 2)) =
      some (some (.mark 508 0 75), some (.travel 508 0)) := by
  decide

/-- C1 (amended): every run accepted by its draw decision produces exactly
one geometry record and exactly one Mark, preceded by at most one Travel
(per scanline and over the whole two-pass pipeline: records and Marks are
in bijection and the stream is chunked Travel?-Mark); the Travel is
omitted exactly when the pair (scan-axis start, row coordinate) equals the
stored pair `(last_c, last_d)` of the previous emission, compared exactly;
and within a single axis pass (same `axes` argument) that pair equality is
exactly coincidence of the physical start point with the previous Mark's
end point.  (At the transition between the two passes the stored pair is
interpreted with axes swapped, which is what `c1_cex` exhibits.) -/
theorem c1_emission :
    (∀ (sOrF : Bool) (needLine : Nat → Nat → Bool) (axesX : Bool)
        (dim rowIndex : Nat) (invert : Bool) (row : List Nat) (st : GState)
        (recs : List SvgLine) (gcs : List GInstr) (st1 : GState)
        (drawn : Bool),
      processRow sOrF needLine axesX dim rowIndex invert row st =
          some (recs, gcs, st1, drawn) →
        recs.length = (acceptedSegs needLine rowIndex row).length ∧
        countMarks gcs = recs.length ∧ chunksOk gcs = true) ∧
    (∀ (sOrF : Bool) (w h : Nat) (px : Nat → Nat → Nat) (out : PipeOut),
      pipeline sOrF w h px = some out →
        chunksOk out.gc = true ∧ out.svgs.length = countMarks out.gc) ∧
    (∀ (sOrF : Bool) (start stop rowNum : Nat) (invert axesX : Bool)
        (dim val : Nat) (st : GState),
      (∀ x y, GInstr.travel x y ∉
          (svgPrint sOrF start stop rowNum invert axesX dim val st).2.1) ↔
        (physCoord invert dim start = st.last_c ∧
          (rowNum : Int) * PIXEL_SIZE = st.last_d)) ∧
    (∀ (axesX : Bool) (a b c d : Int),
      physPoint axesX a b = physPoint axesX c d ↔ a = c ∧ b = d) := by
  refine ⟨?_, ?_, ?_, ?_⟩
  · intro sOrF needLine axesX dim rowIndex invert row st recs gcs st1 drawn h
    exact processRow_shape sOrF needLine axesX dim rowIndex invert row st
      recs gcs st1 drawn h
  · intro sOrF w h px out hp
    unfold pipeline at hp
    rcases hx : generateVectors sOrF (mkImg w h px) needLineX true w
        initGState with _ | ox
    · rw [hx] at hp
      exact absurd hp (by simp)
    · rw [hx] at hp
      dsimp only at hp
      rcases hy : generateVectors sOrF (mkImgT w h px) needLineY false h
          ox.st with _ | oy
      · rw [hy] at hp
        exact absurd hp (by simp)
      · rw [hy] at hp
        dsimp only at hp
        simp only [Option.some.injEq] at hp
        subst hp
        obtain ⟨hx1, hx2⟩ := genVecAux_shape sOrF needLineX true w
          (mkImg w h px) 0 false initGState ox hx
        obtain ⟨hy1, hy2⟩ := genVecAux_shape sOrF needLineY false h
          (mkImgT w h px) 0 false ox.st oy hy
        constructor
        · show chunksOk (ox.gc ++ oy.gc) = true
          exact chunksOk_append _ _ hx1 hy1
        · show (ox.svgs ++ oy.svgs).length = countMarks (ox.gc ++ oy.gc)
          rw [List.length_append, countMarks_append, hx2, hy2]
  · intro sOrF start stop rowNum invert axesX dim val st
    rw [svgPrint_gc_eq]
    by_cases hc : physCoord invert dim start ≠ st.last_c ∨
        (rowNum : Int) * PIXEL_SIZE ≠ st.last_d
    · rw [if_pos hc]
      constructor
      · intro hno
        exfalso
        exact hno
          (snapZero (physPoint axesX (physCoord invert dim start)
            ((rowNum : Int) * PIXEL_SIZE)).1)
          (snapZero (physPoint axesX (physCoord invert dim start)
            ((rowNum : Int) * PIXEL_SIZE)).2)
          (by simp [MOVE_TO])
      · intro hpair
        rcases hc with hc | hc
        · exact absurd hpair.1 hc
        · exact absurd hpair.2 hc
    · rw [if_neg hc]
      push_neg at hc
      constructor
      · intro _
        exact hc
      · intro _ x y hmem
        simp [BURN_TO] at hmem
  · intro axesX a b c d
    cases axesX <;> simp [physPoint, Prod.ext_iff] <;> tauto

/-- C1 witness: the pipeline on the 1×1 all-black grid emits exactly one
geometry record and a gcode stream of one Mark (no Travel: the start
coincides with the initial cursor), as the amended invariant requires. -/
theorem c1_emission_witness :
    pipeline false 1 1 (fun _ _ => 0) =
      some ⟨[⟨true, 0, 0, 0, 0⟩], [.mark 0 0 90], ⟨0, 0, 0, 0⟩,
        [(false, true)], [(false, false)]⟩ ∧
    chunksOk [GInstr.mark 0 0 90] = true ∧
    ([(⟨true, 0, 0, 0, 0⟩ : SvgLine)]).length =
      countMarks [GInstr.mark 0 0 90] :=
  ⟨by decide,
    c1_emission.2.1 false 1 1 (fun _ _ => 0)
      ⟨[⟨true, 0, 0, 0, 0⟩], [.mark 0 0 90], ⟨0, 0, 0, 0⟩,
        [(false, true)], [(false, false)]⟩ (by decide)⟩

/-! ## Claim C3: the serpentine inversion flag -/

theorem genVecAux_cons (sOrF : Bool) (needLine : Nat → Nat → Bool)
    (axesX : Bool) (dim : Nat) (row : List Nat) (rest : List (List Nat))
    (rowIndex : Nat) (invert : Bool) (st : GState) (out : PassOut)
    (h : generateVectorsAux sOrF needLine axesX dim (row :: rest) rowIndex
      invert st = some out) :
    ∃ recs gcs st1 drawn out1,
      processScanline sOrF needLine axesX dim rowIndex invert row st =
        some (recs, gcs, st1, drawn) ∧
      generateVectorsAux sOrF needLine axesX dim rest (rowIndex + 1)
        (if drawn then !invert else invert) st1 = some out1 ∧
      out = ⟨recs ++ out1.svgs, gcs ++ out1.gc, out1.st,
        (invert, drawn) :: out1.trace⟩ := by
  simp only [generateVectorsAux] at h
  rcases hps : processScanline sOrF needLine axesX dim rowIndex invert row st
    with _ | ⟨recs, gcs, st1, drawn⟩
  · rw [hps] at h
    exact absurd h (by simp)
  · rw [hps] at h
    dsimp only at h
    rcases hrec : generateVectorsAux sOrF needLine axesX dim rest
        (rowIndex + 1) (if drawn then !invert else invert) st1
      with _ | out1
    · rw [hrec] at h
      exact absurd h (by simp)
    · rw [hrec] at h
      dsimp only at h
      simp only [Option.some.injEq] at h
      exact ⟨recs, gcs, st1, drawn, out1, rfl, hrec, h.symm⟩

theorem genVecAux_trace_head (sOrF : Bool) (needLine : Nat → Nat → Bool)
    (axesX : Bool) (dim : Nat) (img : List (List Nat)) (rowIndex : Nat)
    (invert : Bool) (st : GState) (out : PassOut)
    (h : generateVectorsAux sOrF needLine axesX dim img rowIndex invert st =
      some out) :
    ∀ fd, out.trace.get? 0 = some fd → fd.1 = invert := by
  cases img with
  | nil =>
    simp only [generateVectorsAux, Option.some.injEq] at h
    subst h
    intro fd hfd
    simp at hfd
  | cons row rest =>
    obtain ⟨recs, gcs, st1, drawn, out1, -, -, hout⟩ :=
      genVecAux_cons sOrF needLine axesX dim row rest rowIndex invert st out h
    subst hout
    intro fd hfd
    simp only [List.get?_cons_zero, Option.some.injEq] at hfd
    rw [← hfd]

theorem genVecAux_trace_step (sOrF : Bool) (needLine : Nat → Nat → Bool)
    (axesX : Bool) (dim : Nat) : ∀ (img : List (List Nat)) (rowIndex : Nat)
    (invert : Bool) (st : GState) (out : PassOut),
    generateVectorsAux sOrF needLine axesX dim img rowIndex invert st =
      some out →
    ∀ j a b, out.trace.get? j = some a → out.trace.get? (j + 1) = some b →
      b.1 = (if a.2 then !a.1 else a.1) := by
  intro img
  induction img with
  | nil =>
    intro rowIndex invert st out h j a b ha hb
    simp only [generateVectorsAux, Option.some.injEq] at h
    subst h
    simp at ha
  | cons row rest ih =>
    intro rowIndex invert st out h j a b ha hb
    obtain ⟨recs, gcs, st1, drawn, out1, -, hrec, hout⟩ :=
      genVecAux_cons sOrF needLine axesX dim row rest rowIndex invert st out h
    subst hout
    cases j with
    | zero =>
      simp only [List.get?_cons_zero, Option.some.injEq] at ha
      simp only [List.get?_cons_succ] at hb
      have := genVecAux_trace_head sOrF needLine axesX dim rest (rowIndex + 1)
        (if drawn then !invert else invert) st1 out1 hrec b hb
      rw [this, ← ha]
    | succ j =>
      simp only [List.get?_cons_succ] at ha hb
      exact ih (rowIndex + 1) (if drawn then !invert else invert) st1 out1
        hrec j a b ha hb

/-- C3: within each axis pass the serpentine inversion flag starts as
`false` (the pass records the flag in force per scanline in its trace, and
the first scanline is processed uninverted), and after each scanline the
flag is toggled if and only if at least one run was drawn on it: the flag
in force for the next scanline is the previous flag negated exactly when the
scanline drew something. -/
theorem c3_serpentine (sOrF : Bool) (needLine : Nat → Nat → Bool)
    (axesX : Bool) (dim : Nat) (img : List (List Nat)) (st : GState)
    (out : PassOut)
    (h : generateVectors sOrF img needLine axesX dim st = some out) :
    (∀ fd, out.trace.get? 0 = some fd → fd.1 = false) ∧
    (∀ j a b, out.trace.get? j = some a → out.trace.get? (j + 1) = some b →
      b.1 = (if a.2 then !a.1 else a.1)) :=
  ⟨genVecAux_trace_head sOrF needLine axesX dim img 0 false st out h,
    genVecAux_trace_step sOrF needLine axesX dim img 0 false st out h⟩

/-- C3 witness: a two-row image whose first row draws (shade 0, row 0) and
whose second row (odd index) draws nothing; the flag starts `false`, is
toggled to `true` after the drawn row, and the step law of the theorem
instantiates at the recorded trace. -/
theorem c3_serpentine_witness :
    generateVectors false [[0], [0]] needLineX true 1 initGState =
      some ⟨[⟨true, 0, 0, 0, 0⟩], [.mark 0 0 90], ⟨0, 0, 0, 0⟩,
        [(false, true), (true, false)]⟩ ∧
    (true, false).1 =
      (if (false, true).2 then !(false, true).1 else (false, true).1) :=
  ⟨by decide,
    (c3_serpentine false needLineX true 1 [[0], [0]] initGState
      ⟨[⟨true, 0, 0, 0, 0⟩], [.mark 0 0 90], ⟨0, 0, 0, 0⟩,
        [(false, true), (true, false)]⟩ (by decide)).2 0 (false, true)
      (true, false) (by decide) (by decide)⟩

/-! ## Claim C9: coordinate scaling and near-zero snapping -/

/-- The coordinates written by a motion instruction. -/
def coordsOf : GInstr → List Int
  | .travel x y => [x, y]
  | .mark x y _ => [x, y]

theorem scanSegsAux_bound : ∀ (m : List Nat) (fe i prev : Nat), fe < i →
    ∀ s ∈ scanSegsAux fe i prev m,
      s.1 ≤ s.2.1 ∧ s.2.1 + 1 ≤ i + m.length := by
  intro m
  induction m with
  | nil =>
    intro fe i prev hfe s hs
    simp only [scanSegsAux, List.mem_singleton] at hs
    subst hs
    constructor
    · show fe ≤ i - 1
      omega
    · show i - 1 + 1 ≤ i + 0
      omega
  | cons p rest ih =>
    intro fe i prev hfe s hs
    simp only [scanSegsAux] at hs
    by_cases hp : p ≠ prev
    · rw [if_pos hp] at hs
      rcases List.mem_cons.mp hs with rfl | hmem
      · refine ⟨show fe ≤ i from by omega, ?_⟩
        show i + 1 ≤ i + (p :: rest).length
        simp only [List.length_cons]
        omega
      · have := ih i (i + 1) p (by omega) s hmem
        simp only [List.length_cons]
        omega
    · rw [if_neg hp] at hs
      have := ih fe (i + 1) p (by omega) s hs
      simp only [List.length_cons]
      omega

theorem scanSegs_bound (row : List Nat) :
    ∀ s ∈ scanSegs row, s.1 ≤ s.2.1 ∧ s.2.1 + 1 ≤ row.length := by
  cases row with
  | nil => intro s hs; simp [scanSegs] at hs
  | cons a m =>
    intro s hs
    have := scanSegsAux_bound m 0 1 a (by omega) s hs
    simp only [List.length_cons]
    omega

theorem physCoord_nat (invert : Bool) (dim c : Nat) (h : c ≤ dim) :
    ∃ p : Nat, physCoord invert dim c = (p : Int) * PIXEL_SIZE := by
  cases invert with
  | false => exact ⟨c, rfl⟩
  | true =>
    refine ⟨dim - c, ?_⟩
    show ((dim : Int) - c) * PIXEL_SIZE = _
    rw [← Nat.cast_sub h]

theorem svgPrint_coords (sOrF : Bool) (start stop rowNum : Nat)
    (invert axesX : Bool) (dim val : Nat) (st : GState)
    (hs : start ≤ dim) (ht : stop ≤ dim) :
    ∀ ins ∈ (svgPrint sOrF start stop rowNum invert axesX dim val st).2.1,
      ∀ q ∈ coordsOf ins, ∃ p : Nat, q = snapZero ((p : Int) * PIXEL_SIZE) := by
  obtain ⟨pa, hpa⟩ := physCoord_nat invert dim start hs
  obtain ⟨pc, hpc⟩ := physCoord_nat invert dim stop ht
  have hgood : ∀ u : Int, (u = physCoord invert dim start ∨
      u = physCoord invert dim stop ∨ u = (rowNum : Int) * PIXEL_SIZE) →
      ∃ p : Nat, snapZero u = snapZero ((p : Int) * PIXEL_SIZE) := by
    rintro u (rfl | rfl | rfl)
    · exact ⟨pa, by rw [hpa]⟩
    · exact ⟨pc, by rw [hpc]⟩
    · exact ⟨rowNum, rfl⟩
  have hpp : ∀ (ax : Bool) (u v : Int),
      ((physPoint ax u v).1 = u ∨ (physPoint ax u v).1 = v) ∧
      ((physPoint ax u v).2 = u ∨ (physPoint ax u v).2 = v) := by
    intro ax u v
    cases ax
    · exact ⟨Or.inr (by simp [physPoint]), Or.inl (by simp [physPoint])⟩
    · exact ⟨Or.inl (by simp [physPoint]), Or.inr (by simp [physPoint])⟩
  intro ins hins q hq
  rw [svgPrint_gc_eq] at hins
  rcases List.mem_append.mp hins with hmv | hbn
  · have hm : ins = MOVE_TO (physPoint axesX (physCoord invert dim start)
        ((rowNum : Int) * PIXEL_SIZE)).1
        (physPoint axesX (physCoord invert dim start)
          ((rowNum : Int) * PIXEL_SIZE)).2 := by
      by_cases hcc : physCoord invert dim start ≠ st.last_c ∨
          (rowNum : Int) * PIXEL_SIZE ≠ st.last_d
      · rw [if_pos hcc] at hmv
        simpa using hmv
      · rw [if_neg hcc] at hmv
        simp at hmv
    subst hm
    rw [MOVE_TO] at hq
    simp only [coordsOf, List.mem_cons, List.mem_singleton,
      List.not_mem_nil, or_false] at hq
    rcases hq with rfl | rfl
    · rcases (hpp axesX _ _).1 with h1 | h1 <;> rw [h1]
      · exact hgood _ (Or.inl rfl)
      · exact hgood _ (Or.inr (Or.inr rfl))
    · rcases (hpp axesX _ _).2 with h1 | h1 <;> rw [h1]
      · exact hgood _ (Or.inl rfl)
      · exact hgood _ (Or.inr (Or.inr rfl))
  · have hb : ins = BURN_TO (physPoint axesX (physCoord invert dim stop)
        ((rowNum : Int) * PIXEL_SIZE)).1
        (physPoint axesX (physCoord invert dim stop)
          ((rowNum : Int) * PIXEL_SIZE)).2
        (svalOf sOrF (quantVal val)) := by
      simpa using hbn
    subst hb
    rw [BURN_TO] at hq
    simp only [coordsOf, List.mem_cons, List.mem_singleton,
      List.not_mem_nil, or_false] at hq
    rcases hq with rfl | rfl
    · rcases (hpp axesX _ _).1 with h1 | h1 <;> rw [h1]
      · exact hgood _ (Or.inr (Or.inl rfl))
      · exact hgood _ (Or.inr (Or.inr rfl))
    · rcases (hpp axesX _ _).2 with h1 | h1 <;> rw [h1]
      · exact hgood _ (Or.inr (Or.inl rfl))
      · exact hgood _ (Or.inr (Or.inr rfl))

theorem emitSegs_coords (sOrF : Bool) (rowIndex : Nat) (invert axesX : Bool)
    (dim : Nat) : ∀ (segs : List (Nat × Nat × Nat)) (st : GState),
    (∀ s ∈ segs, s.1 ≤ dim ∧ s.2.1 ≤ dim) →
    ∀ ins ∈ (emitSegs sOrF rowIndex invert axesX dim segs st).2.1,
      ∀ q ∈ coordsOf ins, ∃ p : Nat, q = snapZero ((p : Int) * PIXEL_SIZE) := by
  intro segs
  induction segs with
  | nil =>
    intro st _ ins hins
    simp [emitSegs] at hins
  | cons s segs ih =>
    intro st hb ins hins q hq
    obtain ⟨s1, s2, v⟩ := s
    have hEq : (emitSegs sOrF rowIndex invert axesX dim
        ((s1, s2, v) :: segs) st).2.1 =
        (svgPrint sOrF s1 s2 rowIndex invert axesX dim v st).2.1 ++
          (emitSegs sOrF rowIndex invert axesX dim segs
            (svgPrint sOrF s1 s2 rowIndex invert axesX dim v st).2.2).2.1 :=
      rfl
    rw [hEq] at hins
    rcases List.mem_append.mp hins with hmem | hmem
    · have hbs := hb (s1, s2, v) (by simp)
      exact svgPrint_coords sOrF s1 s2 rowIndex invert axesX dim v st
        hbs.1 hbs.2 ins hmem q hq
    · exact ih _ (fun x hx => hb x (List.mem_cons_of_mem _ hx)) ins hmem q hq

theorem processRow_coords (sOrF : Bool) (needLine : Nat → Nat → Bool)
    (axesX : Bool) (dim rowIndex : Nat) (invert : Bool) (row : List Nat)
    (st : GState) (recs : List SvgLine) (gcs : List GInstr) (st1 : GState)
    (drawn : Bool) (hlen : row.length ≤ dim + 1)
    (h : processRow sOrF needLine axesX dim rowIndex invert row st =
      some (recs, gcs, st1, drawn)) :
    ∀ ins ∈ gcs, ∀ q ∈ coordsOf ins,
      ∃ p : Nat, q = snapZero ((p : Int) * PIXEL_SIZE) := by
  cases row with
  | nil => exact absurd h (by simp [processRow])
  | cons a m =>
    simp only [processRow, Option.some.injEq, Prod.mk.injEq] at h
    obtain ⟨-, h2, -, -⟩ := h
    rw [← h2]
    apply emitSegs_coords sOrF rowIndex invert axesX dim _ st
    intro s hsm
    have hsc : s ∈ scanSegs (a :: m) :=
      List.mem_of_mem_filter hsm
    have := scanSegs_bound (a :: m) s hsc
    omega

theorem genVecAux_coords (sOrF : Bool) (needLine : Nat → Nat → Bool)
    (axesX : Bool) (dim : Nat) : ∀ (img : List (List Nat)) (rowIndex : Nat)
    (invert : Bool) (st : GState) (out : PassOut),
    (∀ row ∈ img, row.length ≤ dim + 1) →
    generateVectorsAux sOrF needLine axesX dim img rowIndex invert st =
      some out →
    ∀ ins ∈ out.gc, ∀ q ∈ coordsOf ins,
      ∃ p : Nat, q = snapZero ((p : Int) * PIXEL_SIZE) := by
  intro img
  induction img with
  | nil =>
    intro rowIndex invert st out _ h ins hins
    simp only [generateVectorsAux, Option.some.injEq] at h
    subst h
    simp at hins
  | cons row rest ih =>
    intro rowIndex invert st out hlen h ins hins q hq
    obtain ⟨recs, gcs, st1, drawn, out1, hps, hrec, hout⟩ :=
      genVecAux_cons sOrF needLine axesX dim row rest rowIndex invert st out h
    subst hout
    rcases List.mem_append.mp hins with hmem | hmem
    · have hrl : (if invert then row.reverse else row).length ≤ dim + 1 := by
        have := hlen row (by simp)
        cases invert <;> simpa
      exact processRow_coords sOrF needLine axesX dim rowIndex invert
        (if invert then row.reverse else row) st recs gcs st1 drawn hrl hps
        ins hmem q hq
    · exact ih (rowIndex + 1) (if drawn then !invert else invert) st1 out1
        (fun r hr => hlen r (List.mem_cons_of_mem _ hr)) hrec ins hmem q hq

theorem mkImg_row_len (w h : Nat) (px : Nat → Nat → Nat) :
    ∀ row ∈ mkImg w h px, row.length = w := by
  intro row hrow
  simp only [mkImg, List.mem_map] at hrow
  obtain ⟨r, -, hr⟩ := hrow
  rw [← hr]
  simp

theorem mkImgT_row_len (w h : Nat) (px : Nat → Nat → Nat) :
    ∀ row ∈ mkImgT w h px, row.length = h := by
  intro row hrow
  simp only [mkImgT, List.mem_map] at hrow
  obtain ⟨c, -, hc⟩ := hrow
  rw [← hc]
  simp

/-- C9: every coordinate of every emitted motion instruction is the snap of
an exact product `pixel × PIXEL_SIZE`; when that product is at least the
minimal unit (1 = 0.001 mm) the coordinate equals the product exactly, and
when it is below the minimal unit the coordinate is exactly 0.  The final
conjunct ties the integer unit to the source's scale factor
`1 / (200.0 / 25.4)` mm. -/
theorem c9_scaling (sOrF : Bool) (w h : Nat) (px : Nat → Nat → Nat)
    (out : PipeOut) (hp : pipeline sOrF w h px = some out) :
    (∀ ins ∈ out.gc, ∀ q ∈ coordsOf ins, ∃ p : Nat,
      q = snapZero ((p : Int) * PIXEL_SIZE) ∧
      ((p : Int) * PIXEL_SIZE < 1 → q = 0) ∧
      (1 ≤ (p : Int) * PIXEL_SIZE → q = (p : Int) * PIXEL_SIZE)) ∧
    PIXEL_SIZE_MM = (PIXEL_SIZE : ℚ) / 1000 := by
  refine ⟨?_, PIXEL_SIZE_MM_eq⟩
  have hq : ∀ ins ∈ out.gc, ∀ q ∈ coordsOf ins,
      ∃ p : Nat, q = snapZero ((p : Int) * PIXEL_SIZE) := by
    unfold pipeline at hp
    rcases hx : generateVectors sOrF (mkImg w h px) needLineX true w
        initGState with _ | ox
    · rw [hx] at hp
      exact absurd hp (by simp)
    · rw [hx] at hp
      dsimp only at hp
      rcases hy : generateVectors sOrF (mkImgT w h px) needLineY false h
          ox.st with _ | oy
      · rw [hy] at hp
        exact absurd hp (by simp)
      · rw [hy] at hp
        dsimp only at hp
        simp only [Option.some.injEq] at hp
        subst hp
        intro ins hins q hqm
        rcases List.mem_append.mp hins with hmem | hmem
        · exact genVecAux_coords sOrF needLineX true w (mkImg w h px) 0
            false initGState ox
            (fun r hr => by rw [mkImg_row_len w h px r hr]; omega) hx
            ins hmem q hqm
        · exact genVecAux_coords sOrF needLineY false h (mkImgT w h px) 0
            false ox.st oy
            (fun r hr => by rw [mkImgT_row_len w h px r hr]; omega) hy
            ins hmem q hqm
  intro ins hins q hqm
  obtain ⟨p, hpq⟩ := hq ins hins q hqm
  refine ⟨p, hpq, ?_, ?_⟩
  · intro hlt
    rw [hpq, snapZero, if_pos hlt]
  · intro hge
    rw [hpq, snapZero, if_neg (by omega)]

/-- C9 witness: on the 1×1 all-black grid the single emitted Mark has
coordinates 0, and the theorem instantiates at that instruction. -/
theorem c9_scaling_witness :
    pipeline false 1 1 (fun _ _ => 0) =
      some ⟨[⟨true, 0, 0, 0, 0⟩], [.mark 0 0 90], ⟨0, 0, 0, 0⟩,
        [(false, true)], [(false, false)]⟩ ∧
    (∃ p : Nat, (0 : Int) = snapZero ((p : Int) * PIXEL_SIZE) ∧
      ((p : Int) * PIXEL_SIZE < 1 → (0 : Int) = 0) ∧
      (1 ≤ (p : Int) * PIXEL_SIZE → (0 : Int) = (p : Int) * PIXEL_SIZE)) :=
  ⟨by decide,
    (c9_scaling false 1 1 (fun _ _ => 0)
      ⟨[⟨true, 0, 0, 0, 0⟩], [.mark 0 0 90], ⟨0, 0, 0, 0⟩,
        [(false, true)], [(false, false)]⟩ (by decide)).1
      (.mark 0 0 90) (by decide) 0 (by decide)⟩

/-! ## Claim C6: serpentine reversal versus coordinate mirroring -/

/-- Mirror a run `[s, e)` around the dimension `n`: the mirrored sample
range is `[n - e, n - s)`. -/
def mirrorB (n : Nat) (b : Nat × Nat × Nat) : Nat × Nat × Nat :=
  (n - b.2.1, n - b.1, b.2.2)

/-- Modelled from the spec (§4.4): mirror the two *reported* coordinates of
a run, in their reported order. -/
def mirrorRep (n : Nat) (b : Nat × Nat × Nat) : Nat × Nat × Nat :=
  (n - b.1, n - b.2.1, b.2.2)

/-- A run as an unordered stroke: its two endpoint coordinates as an
unordered pair together with its shade. -/
def segUnordered (b : Nat × Nat × Nat) : (Nat × Nat) × Nat :=
  ((min b.1 b.2.1, max b.1 b.2.1), b.2.2)

/-- Append one sample of shade `a` at position `n` to a block
decomposition: it extends the last block when the shades agree, else forms
a new last block `[n, n+1)`. -/
def snocBlock (n a : Nat) : List (Nat × Nat × Nat) → List (Nat × Nat × Nat)
  | [] => [(0, 1, a)]
  | [b] => if b.2.2 = a then [(b.1, b.2.1 + 1, b.2.2)] else [b, (n, n + 1, a)]
  | b :: bs => b :: snocBlock n a bs

theorem snocBlock_cons (n a : Nat) (d : Nat × Nat × Nat)
    (L : List (Nat × Nat × Nat)) (h : L ≠ []) :
    snocBlock n a (d :: L) = d :: snocBlock n a L := by
  cases L with
  | nil => exact absurd rfl h
  | cons x xs => rfl

theorem blocks_chained' (m : List Nat) :
    chainedUpto 0 m.length (blocks m) := by
  cases m with
  | nil => exact rfl
  | cons a m' =>
    have := blocks_chained m' a
    simpa using this

theorem chainedUpto_concat (b : Nat × Nat × Nat) :
    ∀ (D : List (Nat × Nat × Nat)) (cur n : Nat),
      chainedUpto cur n (D ++ [b]) → b.2.1 = n := by
  intro D
  induction D with
  | nil =>
    rintro cur n ⟨-, -, h3⟩
    exact h3
  | cons d D' ih =>
    rintro cur n ⟨-, -, h3⟩
    exact ih _ _ h3

theorem shiftB_snocBlock (n a : Nat) :
    ∀ L : List (Nat × Nat × Nat), L ≠ [] →
      shiftB (snocBlock n a L) = snocBlock (n + 1) a (shiftB L) := by
  intro L
  induction L with
  | nil => intro h; exact absurd rfl h
  | cons b bs ih =>
    intro _
    obtain ⟨b1, b2, bv⟩ := b
    cases bs with
    | nil =>
      by_cases hv : bv = a
      · simp [snocBlock, shiftB, hv]
      · simp [snocBlock, shiftB, hv]
    | cons c cs =>
      rw [snocBlock_cons n a _ _ (by simp)]
      have hsc : shiftB ((b1, b2, bv) :: c :: cs) =
          (b1 + 1, b2 + 1, bv) :: shiftB (c :: cs) := rfl
      rw [hsc, snocBlock_cons (n + 1) a _ _ (by simp [shiftB])]
      have hsh : shiftB ((b1, b2, bv) :: snocBlock n a (c :: cs)) =
          (b1 + 1, b2 + 1, bv) :: shiftB (snocBlock n a (c :: cs)) := rfl
      rw [hsh, ih (by simp)]

theorem snocBlock_ne_nil (n a : Nat) : ∀ L, snocBlock n a L ≠ [] := by
  intro L
  cases L with
  | nil => simp [snocBlock]
  | cons b bs =>
    cases bs with
    | nil =>
      obtain ⟨b1, b2, bv⟩ := b
      by_cases hv : bv = a
      · simp [snocBlock, hv]
      · simp [snocBlock, hv]
    | cons c cs =>
      rw [snocBlock_cons n a b (c :: cs) (by simp)]
      simp

theorem consBlock_snocBlock (x a : Nat) :
    ∀ (B : List (Nat × Nat × Nat)) (n : Nat), chainedUpto 0 n B →
      consBlock x (snocBlock n a B) = snocBlock (n + 1) a (consBlock x B) := by
  rintro (_ | ⟨⟨b1, b2, bv⟩, _ | ⟨c, cs⟩⟩) n hch
  · have hn : n = 0 := hch.symm
    subst hn
    by_cases hax : a = x
    · subst hax
      simp [consBlock, snocBlock, shiftB]
    · have hxa : ¬x = a := fun h => hax h.symm
      simp [consBlock, snocBlock, shiftB, hax, hxa]
  · obtain ⟨hb1, hb2, hb3⟩ := hch
    have hb1' : b1 = 0 := hb1
    have hb3' : b2 = n := hb3
    subst hb1'
    subst hb3'
    by_cases hva : bv = a
    · by_cases hvx : bv = x
      · have hxa : x = a := by rw [← hvx, hva]
        simp [consBlock, snocBlock, shiftB, hva, hvx, hxa]
      · have hax : ¬a = x := fun h => hvx (hva.trans h)
        simp [consBlock, snocBlock, shiftB, hva, hvx, hax]
    · by_cases hvx : bv = x
      · have hxa : ¬x = a := by rw [← hvx]; exact hva
        simp [consBlock, snocBlock, shiftB, hva, hvx, hxa]
      · simp [consBlock, snocBlock, shiftB, hva, hvx]
  · have hL : snocBlock n a ((b1, b2, bv) :: c :: cs) =
        (b1, b2, bv) :: snocBlock n a (c :: cs) := rfl
    rw [hL]
    have hshift_ne : shiftB (c :: cs) ≠ [] := by simp [shiftB]
    by_cases hvx : bv = x
    · have hLHS : consBlock x ((b1, b2, bv) :: snocBlock n a (c :: cs)) =
          (0, b2 + 1, x) :: shiftB (snocBlock n a (c :: cs)) := by
        rcases hsn : snocBlock n a (c :: cs) with _ | ⟨e, es⟩
        · exact absurd hsn (snocBlock_ne_nil n a (c :: cs))
        · simp [consBlock, hvx]
      have hRHS1 : consBlock x ((b1, b2, bv) :: c :: cs) =
          (0, b2 + 1, x) :: shiftB (c :: cs) := by
        simp [consBlock, hvx]
      rw [hLHS, hRHS1]
      rw [snocBlock_cons (n + 1) a (0, b2 + 1, x) _ hshift_ne]
      rw [← shiftB_snocBlock n a (c :: cs) (by simp)]
    · have hLHS : consBlock x ((b1, b2, bv) :: snocBlock n a (c :: cs)) =
          (0, 1, x) :: shiftB ((b1, b2, bv) :: snocBlock n a (c :: cs)) := by
        rcases hsn : snocBlock n a (c :: cs) with _ | ⟨e, es⟩
        · exact absurd hsn (snocBlock_ne_nil n a (c :: cs))
        · simp [consBlock, hvx]
      have hRHS1 : consBlock x ((b1, b2, bv) :: c :: cs) =
          (0, 1, x) :: shiftB ((b1, b2, bv) :: c :: cs) := by
        simp [consBlock, hvx]
      rw [hLHS, hRHS1]
      have hs1 : shiftB ((b1, b2, bv) :: snocBlock n a (c :: cs)) =
          (b1 + 1, b2 + 1, bv) :: shiftB (snocBlock n a (c :: cs)) := rfl
      have hs2 : shiftB ((b1, b2, bv) :: c :: cs) =
          (b1 + 1, b2 + 1, bv) :: shiftB (c :: cs) := rfl
      rw [hs1, hs2]
      rw [snocBlock_cons (n + 1) a (0, 1, x)
        ((b1 + 1, b2 + 1, bv) :: shiftB (c :: cs)) (by simp)]
      rw [snocBlock_cons (n + 1) a (b1 + 1, b2 + 1, bv)
        (shiftB (c :: cs)) hshift_ne]
      rw [← shiftB_snocBlock n a (c :: cs) (by simp)]

theorem blocks_snoc (a : Nat) : ∀ l : List Nat,
    blocks (l ++ [a]) = snocBlock l.length a (blocks l) := by
  intro l
  induction l with
  | nil => rfl
  | cons x m ih =>
    have h1 : blocks ((x :: m) ++ [a]) = consBlock x (blocks (m ++ [a])) := rfl
    rw [h1, ih]
    show consBlock x (snocBlock m.length a (blocks m)) =
      snocBlock (m.length + 1) a (consBlock x (blocks m))
    exact consBlock_snocBlock x a (blocks m) m.length (blocks_chained' m)

theorem snocBlock_last_same (n a : Nat) :
    ∀ (D : List (Nat × Nat × Nat)) (b : Nat × Nat × Nat), b.2.2 = a →
      snocBlock n a (D ++ [b]) = D ++ [(b.1, b.2.1 + 1, b.2.2)] := by
  intro D
  induction D with
  | nil =>
    intro b hv
    show snocBlock n a [b] = [(b.1, b.2.1 + 1, b.2.2)]
    simp [snocBlock, hv]
  | cons d D' ih =>
    intro b hv
    rw [List.cons_append, snocBlock_cons n a d (D' ++ [b]) (by simp)]
    rw [ih b hv, List.cons_append]

theorem snocBlock_last_new (n a : Nat) :
    ∀ (D : List (Nat × Nat × Nat)) (b : Nat × Nat × Nat), ¬b.2.2 = a →
      snocBlock n a (D ++ [b]) = (D ++ [b]) ++ [(n, n + 1, a)] := by
  intro D
  induction D with
  | nil =>
    intro b hv
    show snocBlock n a [b] = [b, (n, n + 1, a)]
    simp [snocBlock, hv]
  | cons d D' ih =>
    intro b hv
    rw [List.cons_append, snocBlock_cons n a d (D' ++ [b]) (by simp)]
    rw [ih b hv]
    simp

theorem map_mirror_shift (n : Nat) (D : List (Nat × Nat × Nat))
    (hD : ∀ d ∈ D, d.1 ≤ n ∧ d.2.1 ≤ n) :
    shiftB ((D.map (mirrorB n)).reverse) =
      (D.map (mirrorB (n + 1))).reverse := by
  rw [shiftB, List.map_reverse, List.map_map]
  congr 1
  apply List.map_congr_left
  intro d hd
  obtain ⟨h1, h2⟩ := hD d hd
  simp [Function.comp_apply, mirrorB, Prod.ext_iff]
  omega

/-- Detection on the reversed scanline reports exactly the mirrored
maximal runs, in reverse order. -/
theorem blocks_reverse (l : List Nat) :
    blocks l.reverse = ((blocks l).map (mirrorB l.length)).reverse := by
  induction l using List.reverseRecOn with
  | nil => rfl
  | append_singleton l' a ih =>
    have hrev : (l' ++ [a]).reverse = a :: l'.reverse := by
      rw [List.reverse_append]
      rfl
    rw [hrev]
    have hcons : blocks (a :: l'.reverse) = consBlock a (blocks l'.reverse) :=
      rfl
    rw [hcons, ih]
    have hlen : (l' ++ [a]).length = l'.length + 1 := by simp
    rw [hlen, blocks_snoc a l']
    have hch := blocks_chained' l'
    rcases List.eq_nil_or_concat' (blocks l') with hnil | ⟨D, b, hDb⟩
    · rw [hnil]
      rw [hnil] at hch
      have hn : l'.length = 0 := hch.symm
      rw [hn]
      rfl
    · rw [hDb]
      rw [hDb] at hch
      have hstop : b.2.1 = l'.length := chainedUpto_concat b D 0 l'.length hch
      have hbmem := chainedUpto_bounds (D ++ [b]) 0 l'.length hch
      have hb1 : b.1 < l'.length := by
        have := hbmem b (by simp)
        omega
      have hDbound : ∀ d ∈ D, d.1 ≤ l'.length ∧ d.2.1 ≤ l'.length := by
        intro d hd
        have := hbmem d (by simp [hd])
        omega
      by_cases hv : b.2.2 = a
      · rw [snocBlock_last_same l'.length a D b hv]
        rw [List.map_append, List.map_append, List.reverse_append,
          List.reverse_append]
        have hmb : (mirrorB l'.length) b = (0, l'.length - b.1, b.2.2) := by
          simp only [mirrorB, hstop]
          simp
        have hmb1 : (mirrorB (l'.length + 1)) (b.1, b.2.1 + 1, b.2.2) =
            (0, l'.length + 1 - b.1, b.2.2) := by
          simp [mirrorB, hstop, Prod.ext_iff]
        show consBlock a ([(mirrorB l'.length) b] ++
            (D.map (mirrorB l'.length)).reverse) = _
        rw [hmb]
        show consBlock a ((0, l'.length - b.1, b.2.2) ::
            (D.map (mirrorB l'.length)).reverse) = _
        have hcb : consBlock a ((0, l'.length - b.1, b.2.2) ::
            (D.map (mirrorB l'.length)).reverse) =
            (0, l'.length - b.1 + 1, a) ::
              shiftB ((D.map (mirrorB l'.length)).reverse) := by
          simp [consBlock, hv]
        rw [hcb, map_mirror_shift l'.length D hDbound]
        show _ = [(mirrorB (l'.length + 1)) (b.1, b.2.1 + 1, b.2.2)] ++
          (D.map (mirrorB (l'.length + 1))).reverse
        rw [hmb1]
        show (0, l'.length - b.1 + 1, a) ::
            (D.map (mirrorB (l'.length + 1))).reverse =
          (0, l'.length + 1 - b.1, b.2.2) ::
            (D.map (mirrorB (l'.length + 1))).reverse
        rw [hv]
        have : l'.length - b.1 + 1 = l'.length + 1 - b.1 := by omega
        rw [this]
      · rw [snocBlock_last_new l'.length a D b hv]
        rw [List.map_append, List.map_append, List.map_append,
          List.reverse_append, List.reverse_append, List.reverse_append]
        have hmb : (mirrorB l'.length) b = (0, l'.length - b.1, b.2.2) := by
          simp only [mirrorB, hstop]
          simp
        have hmb2 : (mirrorB (l'.length + 1)) b =
            (1, l'.length + 1 - b.1, b.2.2) := by
          simp [mirrorB, hstop, Prod.ext_iff]
        have hma : (mirrorB (l'.length + 1)) (l'.length, l'.length + 1, a) =
            (0, 1, a) := by
          simp [mirrorB, Prod.ext_iff]
        show consBlock a ([(mirrorB l'.length) b] ++
            (D.map (mirrorB l'.length)).reverse) = _
        rw [hmb]
        show consBlock a ((0, l'.length - b.1, b.2.2) ::
            (D.map (mirrorB l'.length)).reverse) = _
        have hcb : consBlock a ((0, l'.length - b.1, b.2.2) ::
            (D.map (mirrorB l'.length)).reverse) =
            (0, 1, a) :: shiftB ((0, l'.length - b.1, b.2.2) ::
              (D.map (mirrorB l'.length)).reverse) := by
          simp [consBlock, hv]
        rw [hcb]
        have hsh : shiftB ((0, l'.length - b.1, b.2.2) ::
            (D.map (mirrorB l'.length)).reverse) =
            (1, l'.length - b.1 + 1, b.2.2) ::
              shiftB ((D.map (mirrorB l'.length)).reverse) := rfl
        rw [hsh, map_mirror_shift l'.length D hDbound]
        show (0, 1, a) :: (1, l'.length - b.1 + 1, b.2.2) ::
            (D.map (mirrorB (l'.length + 1))).reverse =
          [(mirrorB (l'.length + 1)) (l'.length, l'.length + 1, a)] ++
            ([(mirrorB (l'.length + 1)) b] ++
              (D.map (mirrorB (l'.length + 1))).reverse)
        rw [hma, hmb2]
        have : l'.length - b.1 + 1 = l'.length + 1 - b.1 := by omega
        rw [this]
        rfl

/-- Modelled from the spec (§4.4): the alternative formulation — run
detection on the unreversed scanline, with every reported coordinate
mirrored around the line's dimension — emitted as geometry records. -/
def mirrorFormRecs (needLine : Nat → Nat → Bool) (rowIndex dim : Nat)
    (row : List Nat) : List SvgLine :=
  (acceptedSegs needLine rowIndex row).map fun s =>
    { axesX := true
      c1 := (dim : Int) - s.1
      c2 := (dim : Int) - s.2.1
      rowNum := rowIndex
      color := quantVal s.2.2 }

/-- The geometry records the code emits for one scanline processed with the
inversion flag set (an arbitrary cursor state: the records do not depend on
it). -/
def c6_cexRecs : List SvgLine :=
  ((processScanline false needLineX true 2 0 true [5, 50] initGState).map
    (fun o => o.1)).getD []

/-- C6 counterexample: on the scanline `[5, 50]` (width 2, row 0,
`needLineX` accepts both shades), processing with the inversion flag set
emits the stroke with coordinates (2, 1) carrying colour 42 (shade 50),
while running detection on the unreversed sequence and mirroring every
reported coordinate yields (2, 1) with colour 0 and (1, 1) with colour 42:
the two formulations do not produce the same set of strokes. -/
theorem c6_cex :
    (⟨true, 2, 1, 0, 42⟩ : SvgLine) ∈ c6_cexRecs ∧
    (⟨true, 2, 1, 0, 42⟩ : SvgLine) ∉ mirrorFormRecs needLineX 0 2 [5, 50] := by
  decide

/-- C6 (amended): the spec's equivalence — reversing the sample sequence
before detection versus mirroring every reported coordinate around the
line's dimension — holds for exact maximal-run detection: detection on the
reversed line reports precisely the mirrored runs in reverse order, and as
unordered strokes the two formulations agree (third conjunct).  The code's
detector, however, prints each line's final evaluated segment with its
stop coordinate decremented (first conjunct), and with the flag set this
truncation falls on the mirrored first run rather than the last, so the
code's flag-set processing differs from the mirror formulation (see the
counterexample). -/
theorem c6_mirror (l : List Nat) :
    (l ≠ [] → scanSegs l = adjustLast (blocks l)) ∧
    blocks l.reverse = ((blocks l).map (mirrorB l.length)).reverse ∧
    (((blocks l.reverse).map segUnordered : List ((Nat × Nat) × Nat)) :
        Multiset ((Nat × Nat) × Nat)) =
      ((((blocks l).map (mirrorRep l.length)).map segUnordered :
          List ((Nat × Nat) × Nat)) : Multiset ((Nat × Nat) × Nat)) := by
  refine ⟨?_, blocks_reverse l, ?_⟩
  · intro hne
    cases l with
    | nil => exact absurd rfl hne
    | cons a m => exact scanSegs_eq_blocks a m
  · rw [blocks_reverse l, List.map_reverse, Multiset.coe_reverse]
    congr 1
    rw [List.map_map, List.map_map]
    apply List.map_congr_left
    intro b _
    simp only [Function.comp_apply, segUnordered, mirrorB, mirrorRep]
    rw [Nat.min_comm, Nat.max_comm]

/-- C6 witness: the amended equivalence evaluated on the scanline
`[5, 50]`. -/
theorem c6_mirror_witness :
    scanSegs [5, 50] = adjustLast (blocks [5, 50]) ∧
    blocks ([5, 50] : List Nat).reverse =
      ((blocks [5, 50]).map (mirrorB ([5, 50] : List Nat).length)).reverse :=
  ⟨(c6_mirror [5, 50]).1 (by decide), (c6_mirror [5, 50]).2.1⟩
